import Mathlib

/-!
Verification of the offline-first local cache and synchronization reconciler
of the agentic-notes application (`offline.ts` and its call sites in the note
list controller `Index.tsx`).

Shallow embedding conventions:
* IndexedDB object stores become Lean lists.  The `notes` store (keyPath `id`)
  is a `List NoteLike`; `put` replaces the entry with the same id.  Reads that
  go through the `user_id` index return rows sorted by primary key (`id`),
  which is modelled explicitly by sorting.
* The `pending` store (autoIncrement keys) is a `List (Nat × PendingOp)` of
  key/value pairs together with a `nextKey` counter.
* The `meta` store is projected onto the fields that the reconciler uses:
  the `dirty` cell and the per-user `lastFetchedAt:<uid>` / `lastFullSync:<uid>`
  cells (association lists keyed by user id).
* Timestamps (`Date.now()`, `new Date(iso).getTime()`, the `updated_at`
  column) are embedded as `Int` epoch milliseconds; the server-side
  `gt("updated_at", iso)` comparison is the numeric comparison of the
  corresponding instants.
* Remote (Supabase) calls are embedded by their observable effect: queries
  return the rows of a given remote snapshot, and the drain loop of
  `syncPending` consults an oracle `ok : Nat → Bool` telling whether the n-th
  executed remote call succeeds (an `error` result throws, which the source
  catches and turns into a `break`).  Error-free fetch paths are modelled for
  `fetchRemoteAndMerge`.
* JavaScript `Array.prototype.sort` with a consistent comparator is a stable
  sort; it is embedded as a stable insertion sort `sSort`.
-/

/-! ### Definitions: data model and operations -/

/-- Embedding of the `NoteLike` record of `offline.ts`.  `updated_at` is the
instant denoted by the ISO-8601 string, in epoch milliseconds. -/
structure NoteLike where
  id : String
  title : String
  content : String
  updated_at : Int
  user_id : String
  tags : Option (List String) := none
  source_url : Option String := none
deriving Repr, DecidableEq

/-- Embedding of the `PendingOp` union of `offline.ts` (the autoIncrement key
is kept next to the op in the queue model, not inside it). -/
inductive PendingOp where
  | upsert (note : NoteLike) (ts : Int)
  | delete (noteId : String) (user_id : String) (ts : Int)
deriving Repr, DecidableEq

/-- The `ts` field of a pending op. -/
def PendingOp.ts : PendingOp → Int
  | .upsert _ t => t
  | .delete _ _ t => t

/-- The state persisted in the `agentic-notes` IndexedDB database. -/
structure LocalStore where
  notes : List NoteLike
  pending : List (Nat × PendingOp)
  nextKey : Nat
  dirty : Option Int
  lastFetchedAt : List (String × Int)
  lastFullSync : List (String × Int)
deriving Repr, DecidableEq

/-- Insert `x` in front of the first element `y` with `le x y`. -/
def oInsert (le : α → α → Bool) (x : α) : List α → List α
  | [] => [x]
  | y :: ys => if le x y then x :: y :: ys else y :: oInsert le x ys

/-- Stable insertion sort: for a consistent comparator this computes the
(unique) result of JavaScript's stable `Array.prototype.sort`. -/
def sSort (le : α → α → Bool) : List α → List α
  | [] => []
  | x :: xs => oInsert le x (sSort le xs)

/-- Scan past the first `>` of a tag body; `none` when the tag never closes
(in which case the regex `<[^>]*>` has no match starting at this `<`). -/
def dropTag : List Char → Option (List Char)
  | [] => none
  | c :: rest => if c = '>' then some rest else dropTag rest

/-- One fuel-indexed pass of the global regex replace
`content.replace(/<[^>]*>/g, ' ')`; the fuel is an upper bound on the input
length, so `stripGo l.length l` computes the full replacement. -/
def stripGo : Nat → List Char → List Char
  | 0, l => l
  | _ + 1, [] => []
  | fuel + 1, c :: rest =>
    if c = '<' then
      match dropTag rest with
      | some rest2 => ' ' :: stripGo fuel rest2
      | none => c :: stripGo fuel rest
    else c :: stripGo fuel rest

/-- `(n.content || '').replace(/<[^>]*>/g, ' ')`: every complete `<...>` tag
is replaced by a single space. -/
def stripTags (s : String) : String :=
  ⟨stripGo s.data.length s.data⟩

/-- JavaScript whitespace as tested by `String.prototype.trim` (the common
ASCII part plus NBSP and the line separators). -/
def jsWs (c : Char) : Bool :=
  c == ' ' || c == '\t' || c == '\n' || c == '\r' || c == '\x0b' ||
    c == '\x0c' || c == Char.ofNat 0xa0 || c == Char.ofNat 0x2028 ||
    c == Char.ofNat 0x2029 || c == Char.ofNat 0xfeff

/-- `String.prototype.trim`: strip leading and trailing whitespace. -/
def jsTrim (s : String) : String :=
  ⟨(((s.data.dropWhile jsWs).reverse.dropWhile jsWs).reverse : List Char)⟩

/-- `1` when the note carries the reserved `pinned` tag, else `0`
(`(n.tags || []).includes('pinned') ? 1 : 0`). -/
def pinVal (n : NoteLike) : Nat :=
  if "pinned" ∈ n.tags.getD [] then 1 else 0

/-- The filter of `getLocalNotes`: keep notes with a nonempty trimmed title
or nonempty trimmed tag-stripped content. -/
def keepNote (n : NoteLike) : Bool :=
  decide (jsTrim n.title ≠ "") || decide (jsTrim (stripTags n.content) ≠ "")

/-- The sort comparator of `getLocalNotes` as a total preorder: `noteLE a b`
holds exactly when the JS comparator returns `≤ 0` on `(a, b)` (pinned notes
first, then `updated_at` descending). -/
def noteLE (a b : NoteLike) : Bool :=
  if pinVal a = pinVal b then decide (b.updated_at ≤ a.updated_at)
  else decide (pinVal b < pinVal a)

/-- Ascending primary-key order used by the IndexedDB `user_id` index when it
returns rows (ties on the index key are ordered by primary key `id`;
lexicographic over the characters of the id). -/
def idLE (a b : NoteLike) : Bool :=
  !decide (b.id.data < a.id.data)

/-- `getAll(IDBKeyRange.only(user_id))` on the `user_id` index: the rows of
the owner, in primary-key (`id`) order. -/
def getAllByUser (notes : List NoteLike) (user_id : String) : List NoteLike :=
  sSort idLE (notes.filter (fun n => n.user_id == user_id))

/-- `getLocalNotes(user_id)`: index read, drop empty notes, then the stable
sort by pinned-tag descending / `updated_at` descending. -/
def getLocalNotes (s : LocalStore) (user_id : String) : List NoteLike :=
  sSort noteLE ((getAllByUser s.notes user_id).filter keepNote)

/-- `queueUpsert(note)`: append the op with an autoIncrement key and set the
`dirty` meta cell to `1`.  `ts` is the `Date.now()` of the call. -/
def queueUpsert (s : LocalStore) (note : NoteLike) (ts : Int) : LocalStore :=
  { s with
    pending := s.pending ++ [(s.nextKey, .upsert note ts)]
    nextKey := s.nextKey + 1
    dirty := some 1 }

/-- `queueDelete(id, user_id)`: append the op and set `dirty` to `1`. -/
def queueDelete (s : LocalStore) (id user_id : String) (ts : Int) :
    LocalStore :=
  { s with
    pending := s.pending ++ [(s.nextKey, .delete id user_id ts)]
    nextKey := s.nextKey + 1
    dirty := some 1 }

/-- `getPendingDeletes(user_id?)`: note ids of the queued delete ops,
optionally restricted to one owner. -/
def getPendingDeletes (s : LocalStore) (user_id : Option String) :
    List String :=
  s.pending.filterMap fun p =>
    match p.2 with
    | .upsert _ _ => none
    | .delete nid ou _ =>
      match user_id with
      | none => some nid
      | some u => if ou == u then some nid else none

/-- `isDirty()`: the `dirty` meta cell holds `1`. -/
def isDirty (s : LocalStore) : Bool :=
  s.dirty == some 1

/-- `setDirty(v)`. -/
def setDirty (s : LocalStore) (v : Bool) : LocalStore :=
  { s with dirty := some (if v then 1 else 0) }

/-- The ids of a batch of rows. -/
def idsOf (l : List NoteLike) : List String :=
  l.map (·.id)

/-- `putLocalNote` / an IndexedDB `put` on the `notes` store: replace the row
with the same primary key. -/
def putLocalNote (l : List NoteLike) (n : NoteLike) : List NoteLike :=
  l.filter (fun m => !(m.id == n.id)) ++ [n]

/-- `putManyLocalNotes`: sequential puts inside one transaction. -/
def putManyLocalNotes (l : List NoteLike) (rs : List NoteLike) :
    List NoteLike :=
  rs.foldl putLocalNote l

/-- `mergeRemoteIntoLocal(remote)` on the notes store: return unchanged on an
empty payload; otherwise upsert every remote row, then — when the first row
carries a truthy `user_id` — delete every local row of that owner whose id is
not among the remote ids. -/
def mergeRemoteIntoLocal (l : List NoteLike) : List NoteLike → List NoteLike
  | [] => l
  | r0 :: rest =>
    let remote := r0 :: rest
    let merged := putManyLocalNotes l remote
    if r0.user_id = "" then merged
    else
      merged.filter fun m =>
        !(m.user_id == r0.user_id) || (idsOf remote).contains m.id

/-- `mergeRemoteIntoLocal` at the store level: the transaction touches only
the `notes` object store. -/
def mergeRemoteIntoLocalStore (s : LocalStore) (remote : List NoteLike) :
    LocalStore :=
  { s with notes := mergeRemoteIntoLocal s.notes remote }

/-- The per-op owner check of the drain loop:
`if (user_id && op.<owner> !== user_id) continue`. -/
def opMatches (user_id : Option String) (op : PendingOp) : Bool :=
  match user_id, op with
  | none, _ => true
  | some u, .upsert n _ => n.user_id == u
  | some u, .delete _ ou _ => ou == u

/-- Running state of the drain loop: the current contents of the `pending`
store, the success counter, and the number of executed remote calls. -/
structure DrainOut where
  pending : List (Nat × PendingOp)
  count : Nat
  calls : Nat
deriving Repr, DecidableEq

/-- The `for … of paired.sort(…)` loop of `syncPending`: ops of other owners
are skipped without a remote call; otherwise the next remote call is executed
(`ok` tells whether it succeeds).  On success the op's own queue entry is
deleted and the counter bumped; on failure the loop breaks. -/
def drainGo (user_id : Option String) (ok : Nat → Bool) :
    List (Nat × PendingOp) → DrainOut → DrainOut
  | [], st => st
  | (key, op) :: rest, st =>
    if opMatches user_id op then
      if ok (st.calls + 1) then
        drainGo user_id ok rest
          ⟨st.pending.filter (fun p => !(p.1 == key)), st.count + 1,
            st.calls + 1⟩
      else ⟨st.pending, st.count, st.calls + 1⟩
    else drainGo user_id ok rest st

/-- Result of `syncPending`: the new store, the returned `synced` count, and
the number of remote calls that were executed. -/
structure SyncResult where
  store : LocalStore
  synced : Nat
  calls : Nat
deriving Repr, DecidableEq

/-- `syncPending(user_id?)`: no-op when offline; otherwise drain the queue in
`ts` order (stable sort), and afterwards clear the `dirty` cell when at least
one op was synced and no op of the requested owner remains queued. -/
def syncPending (s : LocalStore) (user_id : Option String) (online : Bool)
    (ok : Nat → Bool) : SyncResult :=
  if !online then ⟨s, 0, 0⟩
  else
    let sorted := sSort (fun a b => decide (a.2.ts ≤ b.2.ts)) s.pending
    let out := drainGo user_id ok sorted ⟨s.pending, 0, 0⟩
    let s1 := { s with pending := out.pending }
    let s2 :=
      if 0 < out.count ∧
          (s1.pending.filter (fun p => opMatches user_id p.2)) = [] then
        { s1 with dirty := some 0 }
      else s1
    ⟨s2, out.count, out.calls⟩

/-- `FULL_SYNC_THRESHOLD_MS = 24 * 60 * 60 * 1000`. -/
def FULL_SYNC_THRESHOLD_MS : Int := 24 * 60 * 60 * 1000

/-- `MIN_FETCH_INTERVAL_MS = 60_000`. -/
def MIN_FETCH_INTERVAL_MS : Int := 60000

/-- Read of a per-user meta cell (`getLastFetchedAt` / `getLastFullSync`). -/
def lookupMeta (l : List (String × Int)) (u : String) : Option Int :=
  (l.find? (fun p => p.1 == u)).map (·.2)

/-- Write of a per-user meta cell (`setLastFetchedAt` / `setLastFullSync`). -/
def setMetaCell (l : List (String × Int)) (u : String) (v : Int) :
    List (String × Int) :=
  (u, v) :: l.filter (fun p => !(p.1 == u))

/-- JavaScript truthiness of an optional numeric meta value: `undefined` and
`0` are falsy (`!lastFull`, `!lastFetched`). -/
def truthyMeta : Option Int → Bool
  | none => false
  | some t => !(t == 0)

/-- The Full-versus-Delta decision of `fetchRemoteAndMerge`:
`!lastFull || (now - lastFull) > FULL_SYNC_THRESHOLD_MS || !lastFetched`. -/
def doFullDecision (lastFull lastFetched : Option Int) (now : Int) : Bool :=
  !(truthyMeta lastFull)
    || (match lastFull with
        | none => false
        | some t => decide (now - t > FULL_SYNC_THRESHOLD_MS))
    || !(truthyMeta lastFetched)

/-- The trailing `if (!dirty) setDirty(false)` of `fetchRemoteAndMerge`
(observably it never changes `isDirty`). -/
def dirtyTouch (s : LocalStore) : LocalStore :=
  if isDirty s then s else setDirty s false

/-- Result of `fetchRemoteAndMerge`: the new store and whether the Full
branch (reconciling fetch) was taken. -/
structure FetchResult where
  store : LocalStore
  didFull : Bool
deriving Repr, DecidableEq

/-- `fetchRemoteAndMerge` of `Index.tsx` on the error-free network path.
`remote` is the remote `notes` table snapshot; the Full query selects the
owner's rows, the Delta query additionally restricts to
`updated_at > lastFetchedAt`.  Both branches drop rows whose id has a queued
pending delete, then merge (Full: `mergeRemoteIntoLocal`, which also sweeps
absent rows; Delta: `putManyLocalNotes`, upserts only, and only when the raw
delta result is nonempty). -/
def fetchRemoteAndMerge (s : LocalStore) (userId : String) (now : Int)
    (remote : List NoteLike) : FetchResult :=
  let lastFull := lookupMeta s.lastFullSync userId
  let lastFetched := lookupMeta s.lastFetchedAt userId
  let pendingDeletes := getPendingDeletes s (some userId)
  if doFullDecision lastFull lastFetched now then
    let data := remote.filter (fun n => n.user_id == userId)
    let filtered := data.filter (fun n => !(pendingDeletes.contains n.id))
    let s1 := mergeRemoteIntoLocalStore s filtered
    let s2 := { s1 with lastFullSync := setMetaCell s1.lastFullSync userId now }
    let s3 := { s2 with lastFetchedAt := setMetaCell s2.lastFetchedAt userId now }
    ⟨dirtyTouch s3, true⟩
  else
    match lastFetched with
    | none => ⟨dirtyTouch s, false⟩
    | some lf =>
      let data := remote.filter
        (fun n => n.user_id == userId && decide (lf < n.updated_at))
      if data.length > 0 then
        let filtered := data.filter (fun n => !(pendingDeletes.contains n.id))
        let s1 := { s with notes := putManyLocalNotes s.notes filtered }
        let s2 :=
          { s1 with lastFetchedAt := setMetaCell s1.lastFetchedAt userId now }
        ⟨dirtyTouch s2, false⟩
      else ⟨dirtyTouch s, false⟩

/-- The rows of a batch that survive sequential `put`s of the whole batch:
a row is overwritten by a later row with the same id. -/
def keepLast : List NoteLike → List NoteLike
  | [] => []
  | r :: rs => if (idsOf rs).contains r.id then keepLast rs else r :: keepLast rs

/-- Store for the Scenario-C witness: last full sync 25 hours ago, last fetch
one minute ago (times in epoch ms, `now = 1700000000000`). -/
def wStoreC6 : LocalStore :=
  { notes := [], pending := [], nextKey := 1, dirty := none,
    lastFetchedAt := [("owner1", 1699999940000)],
    lastFullSync := [("owner1", 1699910000000)] }

/-- The empty draft note of the C8 witness. -/
def w8note : NoteLike :=
  { id := "e1", title := " ", content := "<p> </p><br>", updated_at := 1,
    user_id := "owner1" }

/-- Store containing only the empty draft note. -/
def w8store : LocalStore :=
  { notes := [w8note], pending := [], nextKey := 1, dirty := none,
    lastFetchedAt := [], lastFullSync := [] }

/-- Local note still present while its delete is queued (reachable: a
realtime UPDATE event writes the payload row without a pendingDeletes
check). -/
def c1note : NoteLike :=
  { id := "a1", title := "A", content := "x", updated_at := 100,
    user_id := "owner1" }

/-- The remote row with the same id, newer than `lastFetchedAt`. -/
def c1row : NoteLike :=
  { id := "a1", title := "A v2", content := "y", updated_at := 150,
    user_id := "owner1" }

/-- Store with a queued Delete for `a1`, the note still present, and fresh
sync metadata, so the next fetch takes the Delta branch. -/
def c1store : LocalStore :=
  { notes := [c1note], pending := [(1, .delete "a1" "owner1" 120)],
    nextKey := 2, dirty := some 1, lastFetchedAt := [("owner1", 130)],
    lastFullSync := [("owner1", 130)] }

/-- Local `temp` sentinel row for the C3 counterexample. -/
def c3temp : NoteLike :=
  { id := "temp", title := "Draft", content := "d", updated_at := 90,
    user_id := "owner1" }

/-- Local note with a queued delete for the C3 counterexample. -/
def c3n1 : NoteLike :=
  { id := "n1", title := "N1", content := "c1", updated_at := 80,
    user_id := "owner1" }

/-- Remote row for `n1` (not yet aware of the queued delete). -/
def c3rowN1 : NoteLike :=
  { id := "n1", title := "N1", content := "c1", updated_at := 80,
    user_id := "owner1" }

/-- Remote row for a second note `n2`. -/
def c3row2 : NoteLike :=
  { id := "n2", title := "N2", content := "c2", updated_at := 85,
    user_id := "owner1" }

/-- Store for the C3 counterexample: `temp` and `n1` present locally, a
Delete queued for `n1`, no sync metadata (forcing the Full branch). -/
def c3store : LocalStore :=
  { notes := [c3temp, c3n1], pending := [(1, .delete "n1" "owner1" 95)],
    nextKey := 2, dirty := some 1, lastFetchedAt := [], lastFullSync := [] }

/-- A pending op of owner A for the C5 counterexample. -/
def c5noteA : NoteLike :=
  { id := "a5", title := "A", content := "x", updated_at := 10,
    user_id := "ownerA" }

/-- A pending op of a different owner B. -/
def c5noteB : NoteLike :=
  { id := "b5", title := "B", content := "y", updated_at := 11,
    user_id := "ownerB" }

/-- Store with one queued op for each of two owners, dirty set. -/
def c5store : LocalStore :=
  { notes := [], pending := [(1, .upsert c5noteA 1), (2, .upsert c5noteB 2)],
    nextKey := 3, dirty := some 1, lastFetchedAt := [], lastFullSync := [] }

/-- Queue for the C2 witness: three same-owner ops at times 1 < 2 < 3. -/
def w2store : LocalStore :=
  { notes := [c5noteA],
    pending :=
      [(1, .upsert c1note 1), (2, .delete "b1" "owner1" 2),
        (3, .upsert c1row 3)],
    nextKey := 4, dirty := some 1, lastFetchedAt := [], lastFullSync := [] }

/-- Unpinned note for the C7 witness. -/
def w7a : NoteLike :=
  { id := "a7", title := "A", content := "x", updated_at := 30,
    user_id := "owner1" }

/-- Pinned note for the C7 witness. -/
def w7b : NoteLike :=
  { id := "b7", title := "B", content := "x", updated_at := 20,
    user_id := "owner1", tags := some ["pinned"] }

/-- Unpinned note tying with `w7a` on `updated_at`. -/
def w7c : NoteLike :=
  { id := "c7", title := "C", content := "x", updated_at := 30,
    user_id := "owner1" }

/-- Store for the C7 witness (insertion order scrambled). -/
def w7store : LocalStore :=
  { notes := [w7c, w7a, w7b], pending := [], nextKey := 1, dirty := none,
    lastFetchedAt := [], lastFullSync := [] }

/-! ### Theorems -/

theorem oInsert_perm (le : α → α → Bool) (x : α) :
    ∀ l : List α, List.Perm (oInsert le x l) (x :: l) := by
  intro l
  induction l with
  | nil => exact List.Perm.refl _
  | cons y ys ih =>
    simp only [oInsert]
    by_cases h : le x y = true
    · rw [if_pos h]
    · rw [if_neg h]
      exact (List.Perm.cons y ih).trans (List.Perm.swap x y ys)

theorem sSort_perm (le : α → α → Bool) :
    ∀ l : List α, List.Perm (sSort le l) l := by
  intro l
  induction l with
  | nil => exact List.Perm.refl _
  | cons x xs ih =>
    exact (oInsert_perm le x (sSort le xs)).trans (List.Perm.cons x ih)

theorem mem_sSort (le : α → α → Bool) {x : α} {l : List α} :
    x ∈ sSort le l ↔ x ∈ l := (sSort_perm le l).mem_iff

theorem mem_oInsert (le : α → α → Bool) {x y : α} {l : List α} :
    y ∈ oInsert le x l ↔ y = x ∨ y ∈ l := by
  rw [(oInsert_perm le x l).mem_iff, List.mem_cons]

/-- Inserting below a lower bound of an `le`-sorted list keeps the list. -/
theorem oInsert_of_le_head (le : α → α → Bool) (x : α) :
    ∀ l : List α, (∀ y ∈ l, le x y = true) → oInsert le x l = x :: l := by
  intro l h
  cases l with
  | nil => rfl
  | cons y ys => simp [oInsert, h y (by simp)]

/-- Sorting an already `le`-sorted list is the identity. -/
theorem sSort_of_pairwise (le : α → α → Bool) :
    ∀ l : List α, l.Pairwise (fun a b => le a b = true) → sSort le l = l := by
  intro l h
  induction l with
  | nil => rfl
  | cons x xs ih =>
    have hx : ∀ y ∈ xs, le x y = true := (List.pairwise_cons.1 h).1
    have htl := (List.pairwise_cons.1 h).2
    rw [sSort, ih htl, oInsert_of_le_head le x xs hx]

/-- Inserting `x` into an ordered-and-stable list keeps it ordered and stable,
provided `x` came before every list element in the original input order `Q`. -/
theorem oInsert_pairwise_stable (le : α → α → Bool) (Q : α → α → Prop)
    (htot : ∀ a b, le a b = true ∨ le b a = true)
    (htr : ∀ a b c, le a b = true → le b c = true → le a c = true) (x : α) :
    ∀ l : List α, (∀ y ∈ l, Q x y) →
      l.Pairwise (fun a b => le a b = true ∧ (le b a = true → Q a b)) →
      (oInsert le x l).Pairwise
        (fun a b => le a b = true ∧ (le b a = true → Q a b)) := by
  intro l
  induction l with
  | nil => intro _ _; simp [oInsert]
  | cons y ys ih =>
    intro hq hp
    simp only [oInsert]
    by_cases hxy : le x y = true
    · rw [if_pos hxy]
      refine List.Pairwise.cons ?_ hp
      intro z hz
      rcases List.mem_cons.1 hz with rfl | hz
      · exact ⟨hxy, fun _ => hq z (by simp)⟩
      · have hyz := (List.pairwise_cons.1 hp).1 z hz
        exact ⟨htr x y z hxy hyz.1, fun _ => hq z (by simp [hz])⟩
    · rw [if_neg hxy]
      have hyx : le y x = true := (htot x y).resolve_left hxy
      refine List.Pairwise.cons ?_ ?_
      · intro z hz
        rcases (mem_oInsert le).1 hz with rfl | hz
        · exact ⟨hyx, fun hle => absurd hle hxy⟩
        · exact (List.pairwise_cons.1 hp).1 z hz
      · exact ih (fun z hz => hq z (by simp [hz])) (List.pairwise_cons.1 hp).2

/-- Combined sortedness and stability of `sSort`: for a total and transitive
comparator, adjacent output elements are `le`-ordered, and on ties the input
order (any `Pairwise Q` ordering of the input) is preserved. -/
theorem sSort_pairwise_stable (le : α → α → Bool) (Q : α → α → Prop)
    (htot : ∀ a b, le a b = true ∨ le b a = true)
    (htr : ∀ a b c, le a b = true → le b c = true → le a c = true) :
    ∀ l : List α, l.Pairwise Q →
      (sSort le l).Pairwise
        (fun a b => le a b = true ∧ (le b a = true → Q a b)) := by
  intro l hq
  induction l with
  | nil => simp [sSort]
  | cons x xs ih =>
    have hq₀ : ∀ y ∈ sSort le xs, Q x y := fun y hy =>
      (List.pairwise_cons.1 hq).1 y ((mem_sSort le).1 hy)
    exact oInsert_pairwise_stable le Q htot htr x (sSort le xs) hq₀
      (ih (List.pairwise_cons.1 hq).2)

theorem dropTag_length :
    ∀ l r : List Char, dropTag l = some r → r.length < l.length := by
  intro l
  induction l with
  | nil => intro r h; simp [dropTag] at h
  | cons c rest ih =>
    intro r h
    simp only [dropTag] at h
    by_cases hc : c = '>'
    · rw [if_pos hc] at h
      cases h
      simp
    · rw [if_neg hc] at h
      exact Nat.lt_trans (ih r h) (by simp)

theorem filterTwice (p q : α → Bool) :
    ∀ l : List α, (l.filter p).filter q = l.filter fun a => p a && q a := by
  intro l
  induction l with
  | nil => rfl
  | cons a l ih =>
    by_cases hp : p a = true
    · by_cases hq : q a = true
      · simp [List.filter_cons, hp, hq, ih]
      · simp [List.filter_cons, hp, hq, ih]
    · simp [List.filter_cons, hp, ih]

theorem filterNone (p : α → Bool) :
    ∀ l : List α, (∀ a ∈ l, p a = false) → l.filter p = [] := by
  intro l h
  induction l with
  | nil => rfl
  | cons a l ih =>
    simp [List.filter_cons, h a (by simp),
      ih (fun b hb => h b (by simp [hb]))]

theorem mem_keepLast {x : NoteLike} :
    ∀ rs : List NoteLike, x ∈ keepLast rs → x ∈ rs := by
  intro rs h
  induction rs with
  | nil => exact absurd h (by simp [keepLast])
  | cons r rs ih =>
    by_cases hc : (idsOf rs).contains r.id = true
    · rw [keepLast, if_pos hc] at h
      exact List.mem_cons_of_mem r (ih h)
    · rw [keepLast, if_neg hc] at h
      rcases List.mem_cons.1 h with rfl | h
      · exact List.mem_cons_self x rs
      · exact List.mem_cons_of_mem r (ih h)

theorem contains_idsOf_of_mem {x : NoteLike} {rs : List NoteLike}
    (h : x ∈ rs) : (idsOf rs).contains x.id = true :=
  List.elem_eq_true_of_mem (List.mem_map_of_mem (·.id) h)

/-- `putManyLocalNotes` in closed form: the old rows whose id is not in the
batch, followed by the batch itself (later duplicates win). -/
theorem putMany_eq (rs : List NoteLike) :
    ∀ l : List NoteLike,
      putManyLocalNotes l rs =
        l.filter (fun n => !((idsOf rs).contains n.id)) ++ keepLast rs := by
  induction rs with
  | nil => intro l; simp [putManyLocalNotes, keepLast, idsOf]
  | cons r rs ih =>
    intro l
    have step : putManyLocalNotes l (r :: rs) =
        putManyLocalNotes (putLocalNote l r) rs := rfl
    rw [step, ih (putLocalNote l r), putLocalNote, List.filter_append,
      filterTwice]
    have hcons : ∀ a : NoteLike,
        (idsOf (r :: rs)).contains a.id =
          ((a.id == r.id) || (idsOf rs).contains a.id) := fun a => rfl
    by_cases hc : (idsOf rs).contains r.id = true
    · rw [keepLast, if_pos hc]
      have hone : [r].filter (fun n => !((idsOf rs).contains n.id)) = [] := by
        rw [List.filter_cons, hc]
        rfl
      rw [hone, List.append_nil]
      congr 1
      apply List.filter_congr
      intro a _
      rw [hcons a, Bool.not_or]
    · rw [keepLast, if_neg hc]
      have hone : [r].filter (fun n => !((idsOf rs).contains n.id)) = [r] := by
        rw [List.filter_cons]
        rw [Bool.eq_false_iff.2 hc]
        rfl
      rw [hone, List.append_assoc, List.singleton_append]
      congr 1
      apply List.filter_congr
      intro a _
      rw [hcons a, Bool.not_or]

/-- Rows surviving the whole batch all have an id of the batch, so a filter
that also requires the id to be outside the batch drops all of them. -/
theorem keepLast_filter_notin (rs : List NoteLike) (q : NoteLike → Bool) :
    (keepLast rs).filter
      (fun n => q n && !((idsOf rs).contains n.id)) = [] := by
  apply filterNone
  intro a ha
  rw [contains_idsOf_of_mem (mem_keepLast rs ha)]
  cases q a <;> rfl

theorem keepLast_filter_notin' (rs : List NoteLike) :
    (keepLast rs).filter (fun n => !((idsOf rs).contains n.id)) = [] := by
  apply filterNone
  intro a ha
  rw [contains_idsOf_of_mem (mem_keepLast rs ha)]
  rfl

/-- Closed form of a nonempty merge when the first row has an empty (falsy)
`user_id`: the deletion sweep is skipped. -/
theorem merge_eq_of_empty_user (l : List NoteLike) (r0 : NoteLike)
    (rest : List NoteLike) (hu : r0.user_id = "") :
    mergeRemoteIntoLocal l (r0 :: rest) =
      putManyLocalNotes l (r0 :: rest) := by
  simp only [mergeRemoteIntoLocal, hu, if_pos]

/-- Closed form of a nonempty merge with a truthy owner: upsert the batch,
then keep only rows of other owners or rows whose id occurs in the batch. -/
theorem merge_eq_of_user (l : List NoteLike) (r0 : NoteLike)
    (rest : List NoteLike) (hu : r0.user_id ≠ "") :
    mergeRemoteIntoLocal l (r0 :: rest) =
      (putManyLocalNotes l (r0 :: rest)).filter
        (fun m =>
          !(m.user_id == r0.user_id) ||
            (idsOf (r0 :: rest)).contains m.id) := by
  simp only [mergeRemoteIntoLocal, hu, if_neg, if_false]

theorem putMany_idem (l rs : List NoteLike) :
    putManyLocalNotes (putManyLocalNotes l rs) rs = putManyLocalNotes l rs := by
  rw [putMany_eq, putMany_eq, List.filter_append, filterTwice,
    keepLast_filter_notin']
  congr 1
  rw [List.append_nil]
  apply List.filter_congr
  intro a _
  cases (idsOf rs).contains a.id <;> rfl

/-- Normal form of a nonempty merge with a truthy owner: the surviving old
rows (id outside the batch and different owner — same-owner rows outside the
batch are swept) followed by the batch. -/
theorem merge_normal (l : List NoteLike) (r0 : NoteLike)
    (rest : List NoteLike) (hu : r0.user_id ≠ "") :
    mergeRemoteIntoLocal l (r0 :: rest) =
      l.filter
          (fun n =>
            !((idsOf (r0 :: rest)).contains n.id) &&
              !(n.user_id == r0.user_id)) ++
        keepLast (r0 :: rest) := by
  rw [merge_eq_of_user _ _ _ hu, putMany_eq]
  simp only [List.filter_append, filterTwice]
  congr 1
  · apply List.filter_congr
    intro a _
    cases h1 : (idsOf (r0 :: rest)).contains a.id <;>
      cases h2 : a.user_id == r0.user_id <;> simp [h1, h2]
  · apply List.filter_eq_self.mpr
    intro a ha
    rw [contains_idsOf_of_mem (mem_keepLast _ ha)]
    cases a.user_id == r0.user_id <;> rfl

theorem merge_idem (l rs : List NoteLike) :
    mergeRemoteIntoLocal (mergeRemoteIntoLocal l rs) rs =
      mergeRemoteIntoLocal l rs := by
  cases rs with
  | nil => rfl
  | cons r0 rest =>
    by_cases hu : r0.user_id = ""
    · rw [merge_eq_of_empty_user _ _ _ hu, merge_eq_of_empty_user _ _ _ hu]
      exact putMany_idem l (r0 :: rest)
    · rw [merge_normal _ _ _ hu, merge_normal _ _ _ hu]
      simp only [List.filter_append, filterTwice]
      have hnil : (keepLast (r0 :: rest)).filter
          (fun n =>
            !((idsOf (r0 :: rest)).contains n.id) &&
              !(n.user_id == r0.user_id)) = [] := by
        apply filterNone
        intro a ha
        rw [contains_idsOf_of_mem (mem_keepLast _ ha)]
        cases a.user_id == r0.user_id <;> rfl
      rw [hnil, List.append_nil]
      congr 1
      apply List.filter_congr
      intro a _
      cases h1 : (idsOf (r0 :: rest)).contains a.id <;>
        cases h2 : a.user_id == r0.user_id <;> simp [h1, h2]

theorem pairwise_trivial : ∀ l : List α, l.Pairwise fun _ _ => True := by
  intro l
  induction l with
  | nil => exact List.Pairwise.nil
  | cons a l ih => exact List.Pairwise.cons (fun b _ => trivial) ih

theorem mem_putMany {n : NoteLike} {l rs : List NoteLike}
    (h : n ∈ putManyLocalNotes l rs) : n ∈ l ∨ n ∈ rs := by
  rw [putMany_eq] at h
  rcases List.mem_append.1 h with h | h
  · exact Or.inl (List.mem_of_mem_filter h)
  · exact Or.inr (mem_keepLast rs h)

theorem mem_merge {n : NoteLike} {l rs : List NoteLike}
    (h : n ∈ mergeRemoteIntoLocal l rs) : n ∈ l ∨ n ∈ rs := by
  cases rs with
  | nil => exact Or.inl h
  | cons r0 rest =>
    by_cases hu : r0.user_id = ""
    · rw [merge_eq_of_empty_user _ _ _ hu] at h
      exact mem_putMany h
    · rw [merge_eq_of_user _ _ _ hu] at h
      exact mem_putMany (List.mem_of_mem_filter h)

theorem dirtyTouch_notes (s : LocalStore) : (dirtyTouch s).notes = s.notes := by
  unfold dirtyTouch
  split <;> rfl

theorem dirtyTouch_pending (s : LocalStore) :
    (dirtyTouch s).pending = s.pending := by
  unfold dirtyTouch
  split <;> rfl

/-- C10: merging an empty remote snapshot is a complete no-op on the store —
no note is upserted, none is deleted, and no other state is modified, so a
Full fetch returning zero rows never wipes the owner's local notes. -/
theorem c10_empty_merge_frame (s : LocalStore) :
    mergeRemoteIntoLocalStore s [] = s := rfl

/-- C9: while the connectivity signal reports offline, `syncPending` returns
a synced count of zero, executes no remote call, and leaves the whole store
(queue, notes, dirty flag, metadata) unchanged. -/
theorem c9_offline_noop (s : LocalStore) (user_id : Option String)
    (ok : Nat → Bool) :
    syncPending s user_id false ok = ⟨s, 0, 0⟩ := rfl

/-- C4: merging the same remote snapshot twice in succession leaves exactly
the same notes state in LocalStore as merging it once. -/
theorem c4_idempotent_merge (s : LocalStore) (remote : List NoteLike) :
    mergeRemoteIntoLocalStore (mergeRemoteIntoLocalStore s remote) remote =
      mergeRemoteIntoLocalStore s remote := by
  unfold mergeRemoteIntoLocalStore
  simp only [merge_idem]

/-- C6: when `lastFullSyncAt` is unset, or older than the 24-hour
`FULL_SYNC_THRESHOLD`, the next `fetchRemoteAndMerge` performs a Full fetch
rather than a Delta fetch, regardless of how recent `lastFetchedAt` is. -/
theorem c6_full_fetch_decision (s : LocalStore) (userId : String) (now : Int)
    (remote : List NoteLike)
    (h : lookupMeta s.lastFullSync userId = none ∨
      ∃ t, lookupMeta s.lastFullSync userId = some t ∧
        now - t > FULL_SYNC_THRESHOLD_MS) :
    (fetchRemoteAndMerge s userId now remote).didFull = true := by
  have hdec : doFullDecision (lookupMeta s.lastFullSync userId)
      (lookupMeta s.lastFetchedAt userId) now = true := by
    rcases h with h | ⟨t, ht, hgt⟩
    · simp [doFullDecision, h, truthyMeta]
    · simp [doFullDecision, ht, truthyMeta, hgt]
  simp only [fetchRemoteAndMerge, hdec, if_true]

/-- Witness for C6: with `lastFullSyncAt` 25 hours old and `lastFetchedAt`
one minute old, the next fetch is a Full fetch. -/
theorem c6_witness :
    (lookupMeta wStoreC6.lastFullSync "owner1" = none ∨
      ∃ t, lookupMeta wStoreC6.lastFullSync "owner1" = some t ∧
        (1700000000000 : Int) - t > FULL_SYNC_THRESHOLD_MS) ∧
    (fetchRemoteAndMerge wStoreC6 "owner1" 1700000000000 []).didFull = true :=
  ⟨Or.inr ⟨1699910000000, by decide⟩,
    c6_full_fetch_decision wStoreC6 "owner1" 1700000000000 []
      (Or.inr ⟨1699910000000, by decide⟩)⟩

/-- C8: a note whose trimmed title is empty and whose tag-stripped trimmed
content is empty stays in underlying storage but is omitted from the
`getLocalNotes` listing. -/
theorem c8_empty_note_filtered (s : LocalStore) (uid : String) (n : NoteLike)
    (hmem : n ∈ s.notes) (_huser : n.user_id = uid)
    (htitle : jsTrim n.title = "")
    (hcontent : jsTrim (stripTags n.content) = "") :
    n ∈ s.notes ∧ n ∉ getLocalNotes s uid := by
  refine ⟨hmem, fun hin => ?_⟩
  have hkeep : keepNote n = true :=
    (List.mem_filter.1 ((mem_sSort noteLE).1 hin)).2
  simp [keepNote, htitle, hcontent] at hkeep

/-- Witness for C8: the concrete empty note is stored yet not listed. -/
theorem c8_witness :
    (w8note ∈ w8store.notes ∧ w8note.user_id = "owner1" ∧
      jsTrim w8note.title = "" ∧ jsTrim (stripTags w8note.content) = "") ∧
    (w8note ∈ w8store.notes ∧ w8note ∉ getLocalNotes w8store "owner1") :=
  ⟨by decide,
    c8_empty_note_filtered w8store "owner1" w8note (by decide) (by decide)
      (by decide) (by decide)⟩

/-- A note surviving a pending-delete filter has an id different from every
queued delete id. -/
theorem id_ne_of_mem_pdFilter {pd : List String} {N : String}
    (hc : pd.contains N = true) {l : List NoteLike} {n : NoteLike}
    (h : n ∈ l.filter (fun m => !(pd.contains m.id))) : n.id ≠ N := by
  have hp := (List.mem_filter.1 h).2
  intro he
  rw [he, hc] at hp
  simp at hp

/-- The notes store after `fetchRemoteAndMerge` is one of three things: kept
as-is, the Full merge of the pendingDeletes-filtered owner rows, or the Delta
upsert of the pendingDeletes-filtered rows newer than `lastFetchedAt`. -/
theorem fetch_notes_cases (s : LocalStore) (userId : String) (now : Int)
    (remote : List NoteLike) :
    (fetchRemoteAndMerge s userId now remote).store.notes = s.notes ∨
    (fetchRemoteAndMerge s userId now remote).store.notes =
      mergeRemoteIntoLocal s.notes
        ((remote.filter (fun m => m.user_id == userId)).filter
          (fun m => !((getPendingDeletes s (some userId)).contains m.id))) ∨
    ∃ lf, (fetchRemoteAndMerge s userId now remote).store.notes =
      putManyLocalNotes s.notes
        ((remote.filter
            (fun m => m.user_id == userId && decide (lf < m.updated_at))).filter
          (fun m => !((getPendingDeletes s (some userId)).contains m.id))) := by
  simp only [fetchRemoteAndMerge]
  split
  · refine Or.inr (Or.inl ?_)
    simp [dirtyTouch_notes, mergeRemoteIntoLocalStore]
  · split
    · exact Or.inl (by simp [dirtyTouch_notes])
    · rename_i lf heq
      split
      · refine Or.inr (Or.inr ⟨lf, ?_⟩)
        simp [dirtyTouch_notes]
      · exact Or.inl (by simp [dirtyTouch_notes])

/-- C1 (amended): a queued Delete masks its note id from every merge path:
if no note of that id is present in LocalStore when `fetchRemoteAndMerge`
runs, none is present afterwards, even when the remote snapshot still
contains a row with that id (the row is dropped by the pendingDeletes
filter).  The delete flow removes the local row when it queues the Delete,
which establishes the absence precondition; a Delta merge does not itself
remove an already-present row (see the counterexample). -/
theorem c1_no_resurrection_amended (s : LocalStore) (userId : String)
    (now : Int) (remote : List NoteLike) (N : String)
    (hdel : N ∈ getPendingDeletes s (some userId))
    (habs : ∀ n ∈ s.notes, n.id ≠ N) :
    ∀ n ∈ (fetchRemoteAndMerge s userId now remote).store.notes, n.id ≠ N := by
  intro n hn
  have hc : (getPendingDeletes s (some userId)).contains N = true :=
    List.elem_eq_true_of_mem hdel
  rcases fetch_notes_cases s userId now remote with h | h | ⟨lf, h⟩
  · rw [h] at hn
    exact habs n hn
  · rw [h] at hn
    rcases mem_merge hn with hmem | hmem
    · exact habs n hmem
    · exact id_ne_of_mem_pdFilter hc hmem
  · rw [h] at hn
    rcases mem_putMany hn with hmem | hmem
    · exact habs n hmem
    · exact id_ne_of_mem_pdFilter hc hmem

/-- Counterexample to C1 as stated: a Delete for `a1` is queued and the
remote snapshot still contains a row with id `a1`, yet after
`fetchRemoteAndMerge` (Delta branch) LocalStore still holds a note with id
`a1` for the owner — the merge only refuses to re-add the row, it does not
remove a present one. -/
theorem c1_counterexample :
    "a1" ∈ getPendingDeletes c1store (some "owner1") ∧
    ("a1" ∈ idsOf [c1row]) ∧
    (fetchRemoteAndMerge c1store "owner1" 200 [c1row]).didFull = false ∧
    ((fetchRemoteAndMerge c1store "owner1" 200 [c1row]).store.notes.any
      (fun n => n.id == "a1" && n.user_id == "owner1")) = true := by
  decide

/-- Witness for the amended C1: with the note absent locally (the state the
delete flow leaves behind), a Delta merge of a snapshot still containing the
row keeps it absent. -/
theorem c1_amended_witness :
    ("a1" ∈ getPendingDeletes
      { c1store with notes := [] } (some "owner1")) ∧
    (∀ n ∈ (fetchRemoteAndMerge { c1store with notes := [] }
        "owner1" 200 [c1row]).store.notes, n.id ≠ "a1") :=
  ⟨by decide,
    c1_no_resurrection_amended { c1store with notes := [] } "owner1" 200
      [c1row] "a1" (by decide) (by decide)⟩

/-- C3 (amended): the Full-merge deletion sweep has no exceptions: every
local note of the owner whose id is absent from the (pendingDeletes-filtered)
nonempty remote batch is deleted — including a note whose id is in the
pendingDeletes set (consistent with its pending deletion) and a note with the
sentinel id `temp` (the UI never persists the `temp` placeholder to
LocalStore, so the missing exclusion is vacuous in practice). -/
theorem c3_full_sweep_amended (l : List NoteLike) (r0 : NoteLike)
    (rest : List NoteLike) (owner : String) (hu : r0.user_id = owner)
    (hne : owner ≠ "") (N : String)
    (hnotin : (idsOf (r0 :: rest)).contains N = false) :
    ∀ m ∈ mergeRemoteIntoLocal l (r0 :: rest),
      m.user_id = owner → m.id ≠ N := by
  intro m hm ho he
  rw [merge_eq_of_user l r0 rest (by rw [hu]; exact hne)] at hm
  have hpred := (List.mem_filter.1 hm).2
  rw [ho, hu, he, hnotin] at hpred
  simp at hpred

/-- Counterexample to C3 as stated: the claim exempts notes with a queued
pending delete and the `temp` placeholder from the Full-merge deletion
sweep, but the sweep deletes both: after the Full `fetchRemoteAndMerge`,
neither the `temp` note nor the pendingDelete-masked `n1` remains. -/
theorem c3_counterexample :
    (c3store.notes.any (fun n => n.id == "temp")) = true ∧
    "n1" ∈ getPendingDeletes c3store (some "owner1") ∧
    (fetchRemoteAndMerge c3store "owner1" 200 [c3rowN1, c3row2]).didFull
      = true ∧
    ((fetchRemoteAndMerge c3store "owner1" 200 [c3rowN1, c3row2]).store.notes.any
      (fun n => n.id == "temp" || n.id == "n1")) = false := by
  decide

/-- Witness for the amended C3: a `temp` note of the owner absent from the
remote batch is removed by the sweep. -/
theorem c3_amended_witness :
    (c3row2.user_id = "owner1" ∧ ("owner1" : String) ≠ "" ∧
      (idsOf [c3row2]).contains "temp" = false) ∧
    (∀ m ∈ mergeRemoteIntoLocal [c3temp] [c3row2],
      m.user_id = "owner1" → m.id ≠ "temp") :=
  ⟨by decide,
    c3_full_sweep_amended [c3temp] c3row2 [] "owner1" (by decide) (by decide)
      "temp" (by decide)⟩

/-- Unfolding of `syncPending` when online. -/
theorem syncPending_online (s : LocalStore) (user_id : Option String)
    (ok : Nat → Bool) :
    syncPending s user_id true ok =
      (let out := drainGo user_id ok
        (sSort (fun a b => decide (a.2.ts ≤ b.2.ts)) s.pending)
        ⟨s.pending, 0, 0⟩
       ⟨if 0 < out.count ∧
            (out.pending.filter (fun p => opMatches user_id p.2)) = [] then
          { s with pending := out.pending, dirty := some 0 }
        else { s with pending := out.pending }, out.count, out.calls⟩) := rfl

/-- C5 (amended): enqueueing any Upsert or Delete sets the dirty flag, and a
drain clears it exactly when it synced at least one op and no op of the
requested owner remains queued — ops of other owners do not keep it set (the
flag is global while the emptiness test is per-owner, see the
counterexample). -/
theorem c5_dirty_flag_amended :
    (∀ (s : LocalStore) (note : NoteLike) (ts : Int),
      isDirty (queueUpsert s note ts) = true) ∧
    (∀ (s : LocalStore) (id owner : String) (ts : Int),
      isDirty (queueDelete s id owner ts) = true) ∧
    (∀ (s : LocalStore) (user_id : Option String) (ok : Nat → Bool),
      (syncPending s user_id true ok).store.dirty =
        if 0 < (syncPending s user_id true ok).synced ∧
            ((syncPending s user_id true ok).store.pending.filter
              (fun p => opMatches user_id p.2)) = [] then some 0
        else s.dirty) := by
  refine ⟨fun s note ts => rfl, fun s id owner ts => rfl, ?_⟩
  intro s user_id ok
  rw [syncPending_online]
  simp only []
  split
  · rename_i hcond
    simp only [if_pos hcond]
  · rename_i hcond
    simp only [if_neg hcond]

/-- Counterexample to C5 as stated: draining owner A's queue (all remote
calls succeed) clears the global dirty flag even though owner B's op is
still queued — the flag is false while a PendingOp remains. -/
theorem c5_counterexample :
    ((syncPending c5store (some "ownerA") true (fun _ => true)).store.pending
      ≠ []) ∧
    isDirty
      (syncPending c5store (some "ownerA") true (fun _ => true)).store
      = false := by
  decide

/-- Main induction for the drain loop: starting at `c` executed calls with
the queue equal to the remaining list, against an oracle failing exactly on
absolute call `k`, the loop deletes exactly the ops before the failing one,
counts them, and stops having executed `k` calls. -/
theorem drainGo_fail_at (uid : Option String) (k : Nat) :
    ∀ (l : List (Nat × PendingOp)) (c cnt : Nat),
      (∀ p ∈ l, opMatches uid p.2 = true) →
      (l.map Prod.fst).Nodup →
      c < k → k ≤ c + l.length →
      drainGo uid (fun j => decide (j ≠ k)) l ⟨l, cnt, c⟩ =
        ⟨l.drop (k - c - 1), cnt + (k - c - 1), k⟩ := by
  intro l
  induction l with
  | nil =>
    intro c cnt _ _ hck hkc
    simp only [List.length_nil, Nat.add_zero] at hkc
    omega
  | cons q rest ih =>
    obtain ⟨key, op⟩ := q
    intro c cnt hall hnod hck hkc
    have hop : opMatches uid op = true := hall (key, op) (by simp)
    by_cases hk : c + 1 = k
    · have hfail : (fun j => decide (j ≠ k)) (c + 1) = false := by
        simp [hk]
      have hzero : k - c - 1 = 0 := by omega
      simp only [drainGo, hop, if_true, hfail, Bool.false_eq_true, if_false,
        hzero, List.drop_zero, Nat.add_zero]
      exact congrArg (DrainOut.mk ((key, op) :: rest) cnt) hk
    · have hgo : (fun j => decide (j ≠ k)) (c + 1) = true := by
        simp
        omega
      have hkey : key ∉ rest.map Prod.fst := (List.nodup_cons.1 hnod).1
      have hfil : ((key, op) :: rest).filter (fun p => !(p.1 == key)) =
          rest := by
        rw [List.filter_cons]
        have hhead : (!(((key, op) : Nat × PendingOp).1 == key)) = false := by
          simp
        rw [hhead]
        simp only [Bool.false_eq_true, if_false]
        apply List.filter_eq_self.mpr
        intro p hp
        have : p.1 ≠ key := by
          intro he
          exact hkey (he ▸ List.mem_map_of_mem Prod.fst hp)
        simp [this]
      have step : drainGo uid (fun j => decide (j ≠ k))
          ((key, op) :: rest) ⟨(key, op) :: rest, cnt, c⟩ =
          drainGo uid (fun j => decide (j ≠ k)) rest
            ⟨rest, cnt + 1, c + 1⟩ := by
        simp only [drainGo, hop, if_true, hgo, hfil]
      rw [step, ih (c + 1) (cnt + 1)
        (fun p hp => hall p (by simp [hp]))
        (List.Nodup.of_cons hnod) (by omega) (by simp at hkc ⊢; omega)]
      have h1 : k - c - 1 = (k - (c + 1) - 1) + 1 := by omega
      rw [h1, List.drop_succ_cons]
      have h2 : cnt + (k - (c + 1) - 1 + 1) = cnt + 1 + (k - (c + 1) - 1) :=
        by omega
      rw [h2]

/-- C2: with ops of one owner queued at strictly increasing times, draining
against a Remote failing exactly on the k-th executed call stops at k: the
first k−1 ops are removed by their own queue keys, ops k..n all stay queued,
the returned synced count is k−1, and the notes store and dirty flag are
untouched. -/
theorem c2_queue_order_partial_failure (s : LocalStore) (uid : String)
    (k : Nat)
    (hall : ∀ p ∈ s.pending, opMatches (some uid) p.2 = true)
    (hkeys : (s.pending.map Prod.fst).Nodup)
    (hts : s.pending.Pairwise (fun a b => a.2.ts < b.2.ts))
    (hk1 : 1 ≤ k) (hkn : k ≤ s.pending.length) :
    (syncPending s (some uid) true (fun j => decide (j ≠ k))).synced =
        k - 1 ∧
      (syncPending s (some uid) true (fun j => decide (j ≠ k))).calls = k ∧
      (syncPending s (some uid) true
          (fun j => decide (j ≠ k))).store.pending =
        s.pending.drop (k - 1) ∧
      (syncPending s (some uid) true
          (fun j => decide (j ≠ k))).store.notes = s.notes ∧
      (syncPending s (some uid) true
          (fun j => decide (j ≠ k))).store.dirty = s.dirty := by
  have hsorted : sSort (fun a b => decide (a.2.ts ≤ b.2.ts)) s.pending =
      s.pending :=
    sSort_of_pairwise _ _ (hts.imp fun h => decide_eq_true (le_of_lt h))
  have hdrain := drainGo_fail_at (some uid) k s.pending 0 0 hall hkeys
    (by omega) (by omega)
  have hd1 : k - 0 - 1 = k - 1 := by omega
  rw [hd1] at hdrain
  have hcond : ¬(0 < (0 + (k - 1)) ∧
      ((s.pending.drop (k - 1)).filter
        (fun p => opMatches (some uid) p.2)) = []) := by
    rintro ⟨hpos, hempty⟩
    rw [List.filter_eq_self.mpr
      (fun p hp => hall p (List.mem_of_mem_drop hp))] at hempty
    have hlen := congrArg List.length hempty
    rw [List.length_drop] at hlen
    simp only [List.length_nil] at hlen
    omega
  rw [syncPending_online]
  simp only [hsorted, hdrain]
  rw [if_neg hcond]
  simp

/-- Witness for C2: failing on the 2nd executed call leaves the 2nd and 3rd
ops queued, removes the 1st, and reports one synced op. -/
theorem c2_witness :
    ((∀ p ∈ w2store.pending, opMatches (some "owner1") p.2 = true) ∧
      (w2store.pending.map Prod.fst).Nodup ∧
      w2store.pending.Pairwise (fun a b => a.2.ts < b.2.ts) ∧
      1 ≤ 2 ∧ 2 ≤ w2store.pending.length) ∧
    ((syncPending w2store (some "owner1") true
        (fun j => decide (j ≠ 2))).synced = 2 - 1 ∧
      (syncPending w2store (some "owner1") true
        (fun j => decide (j ≠ 2))).calls = 2 ∧
      (syncPending w2store (some "owner1") true
          (fun j => decide (j ≠ 2))).store.pending =
        w2store.pending.drop (2 - 1) ∧
      (syncPending w2store (some "owner1") true
          (fun j => decide (j ≠ 2))).store.notes = w2store.notes ∧
      (syncPending w2store (some "owner1") true
          (fun j => decide (j ≠ 2))).store.dirty = w2store.dirty) :=
  ⟨⟨by decide, by decide, by decide, by decide, by decide⟩,
    c2_queue_order_partial_failure w2store "owner1" 2 (by decide) (by decide)
      (by decide) (by decide) (by decide)⟩

/-- Totality of the `getLocalNotes` comparator. -/
theorem noteLE_total (a b : NoteLike) :
    noteLE a b = true ∨ noteLE b a = true := by
  unfold noteLE
  by_cases hp : pinVal a = pinVal b
  · rw [if_pos hp, if_pos hp.symm]
    rcases le_total a.updated_at b.updated_at with h | h
    · exact Or.inr (decide_eq_true h)
    · exact Or.inl (decide_eq_true h)
  · rw [if_neg hp, if_neg (Ne.symm hp)]
    rcases Nat.lt_or_ge (pinVal a) (pinVal b) with h | h
    · exact Or.inr (decide_eq_true h)
    · exact Or.inl (decide_eq_true (by omega))

/-- Transitivity of the `getLocalNotes` comparator. -/
theorem noteLE_trans (a b c : NoteLike) :
    noteLE a b = true → noteLE b c = true → noteLE a c = true := by
  unfold noteLE
  by_cases h1 : pinVal a = pinVal b <;> by_cases h2 : pinVal b = pinVal c
  · rw [if_pos h1, if_pos h2, if_pos (h1.trans h2)]
    intro x y
    exact decide_eq_true (le_trans (of_decide_eq_true y) (of_decide_eq_true x))
  · have h3 : ¬pinVal a = pinVal c := by rw [h1]; exact h2
    rw [if_pos h1, if_neg h2, if_neg h3]
    intro _ y
    have hy := of_decide_eq_true y
    exact decide_eq_true (by omega)
  · have h3 : ¬pinVal a = pinVal c := fun he => h1 (he.trans h2.symm)
    rw [if_neg h1, if_pos h2, if_neg h3]
    intro x _
    have hx := of_decide_eq_true x
    exact decide_eq_true (by omega)
  · rw [if_neg h1, if_neg h2]
    intro x y
    have hx := of_decide_eq_true x
    have hy := of_decide_eq_true y
    by_cases h3 : pinVal a = pinVal c
    · exfalso
      omega
    · rw [if_neg h3]
      exact decide_eq_true (by omega)

/-- Totality of the primary-key order. -/
theorem idLE_total (a b : NoteLike) : idLE a b = true ∨ idLE b a = true := by
  unfold idLE
  by_cases h : b.id.data < a.id.data
  · refine Or.inr ?_
    have : ¬(a.id.data < b.id.data) := lt_asymm h
    simp [this]
  · exact Or.inl (by simp [h])

/-- Transitivity of the primary-key order. -/
theorem idLE_trans (a b c : NoteLike) :
    idLE a b = true → idLE b c = true → idLE a c = true := by
  unfold idLE
  intro h1 h2
  simp only [Bool.not_eq_true', decide_eq_false_iff_not] at h1 h2
  have hab : a.id.data ≤ b.id.data := not_lt.1 h1
  have hbc : b.id.data ≤ c.id.data := not_lt.1 h2
  simp [not_lt.2 (le_trans hab hbc)]

/-- The index read returns rows in (weak) primary-key order. -/
theorem getAllByUser_pairwise (notes : List NoteLike) (uid : String) :
    (getAllByUser notes uid).Pairwise (fun a b => idLE a b = true) := by
  have h := sSort_pairwise_stable idLE (fun _ _ => True) idLE_total idLE_trans
    (notes.filter (fun n => n.user_id == uid)) (pairwise_trivial _)
  exact h.imp (fun hab => hab.1)

/-- With unique primary keys, the index read is in strict id order. -/
theorem getAllByUser_pairwise_strict (notes : List NoteLike) (uid : String)
    (hids : (idsOf notes).Nodup) :
    (getAllByUser notes uid).Pairwise
      (fun a b => a.id.data < b.id.data) := by
  have hsub : (idsOf (notes.filter (fun n => n.user_id == uid))).Nodup := by
    refine List.Nodup.sublist ?_ hids
    exact List.Sublist.map _ (List.filter_sublist notes)
  have hperm : List.Perm (idsOf (getAllByUser notes uid))
      (idsOf (notes.filter (fun n => n.user_id == uid))) :=
    (sSort_perm idLE (notes.filter (fun n => n.user_id == uid))).map _
  have hnod : (idsOf (getAllByUser notes uid)).Nodup :=
    hperm.nodup_iff.2 hsub
  have hne : (getAllByUser notes uid).Pairwise
      (fun a b => a.id ≠ b.id) := List.pairwise_map.1 hnod
  have hle := getAllByUser_pairwise notes uid
  refine (hle.and hne).imp ?_
  rintro a b ⟨h1, h2⟩
  have hle₂ : a.id.data ≤ b.id.data := by
    unfold idLE at h1
    simp only [Bool.not_eq_true', decide_eq_false_iff_not] at h1
    exact not_lt.1 h1
  refine lt_of_le_of_ne hle₂ ?_
  intro he
  exact h2 (String.ext he)

/-- C7: `getLocalNotes` lists all pinned notes before all unpinned ones,
within each group by `updated_at` descending, ties in ascending id order
(the stable sort keeps the index's primary-key order); and it returns
exactly the stored non-empty notes of the owner. -/
theorem c7_list_ordering (s : LocalStore) (uid : String)
    (hids : (idsOf s.notes).Nodup) :
    (getLocalNotes s uid).Pairwise (fun a b =>
      pinVal b ≤ pinVal a ∧
      (pinVal a = pinVal b → b.updated_at ≤ a.updated_at) ∧
      (pinVal a = pinVal b → a.updated_at = b.updated_at →
        a.id.data < b.id.data)) ∧
    (∀ n : NoteLike, n ∈ getLocalNotes s uid ↔
      (n ∈ s.notes ∧ n.user_id = uid ∧ keepNote n = true)) := by
  constructor
  · have hstrict : ((getAllByUser s.notes uid).filter keepNote).Pairwise
        (fun a b => a.id.data < b.id.data) :=
      (getAllByUser_pairwise_strict s.notes uid hids).filter keepNote
    have hmain := sSort_pairwise_stable noteLE
      (fun a b => a.id.data < b.id.data) noteLE_total noteLE_trans
      ((getAllByUser s.notes uid).filter keepNote) hstrict
    refine hmain.imp ?_
    rintro a b ⟨h1, h2⟩
    by_cases hp : pinVal a = pinVal b
    · have hup : b.updated_at ≤ a.updated_at := by
        unfold noteLE at h1
        rw [if_pos hp] at h1
        exact of_decide_eq_true h1
      refine ⟨le_of_eq hp.symm, fun _ => hup, fun _ hupEq => ?_⟩
      have hba : noteLE b a = true := by
        unfold noteLE
        rw [if_pos hp.symm]
        exact decide_eq_true (le_of_eq hupEq)
      exact h2 hba
    · have hlt : pinVal b < pinVal a := by
        unfold noteLE at h1
        rw [if_neg hp] at h1
        exact of_decide_eq_true h1
      exact ⟨le_of_lt hlt, fun he => absurd he hp, fun he => absurd he hp⟩
  · intro n
    rw [getLocalNotes, mem_sSort, List.mem_filter, getAllByUser, mem_sSort,
      List.mem_filter]
    constructor
    · rintro ⟨⟨hmem, hus⟩, hkeep⟩
      exact ⟨hmem, eq_of_beq hus, hkeep⟩
    · rintro ⟨hmem, hus, hkeep⟩
      refine ⟨⟨hmem, ?_⟩, hkeep⟩
      rw [hus]
      simp

/-- Witness for C7 at a concrete store with a pinned note and an
`updated_at` tie. -/
theorem c7_witness :
    (idsOf w7store.notes).Nodup ∧
    ((getLocalNotes w7store "owner1").Pairwise (fun a b =>
      pinVal b ≤ pinVal a ∧
      (pinVal a = pinVal b → b.updated_at ≤ a.updated_at) ∧
      (pinVal a = pinVal b → a.updated_at = b.updated_at →
        a.id.data < b.id.data)) ∧
    (∀ n : NoteLike, n ∈ getLocalNotes w7store "owner1" ↔
      (n ∈ w7store.notes ∧ n.user_id = "owner1" ∧ keepNote n = true))) :=
  ⟨by decide, c7_list_ordering w7store "owner1" (by decide)⟩
